import Mathlib

/-!
Shallow embedding of the repository's two analysis scripts and proofs about them.

Part A embeds the solid-liquid coexistence analyzer (`checkcoext.py`): summary
statistics of a density profile, the two adaptive threshold heuristics and their
conservative combination, the per-sample phase masks and fractions, the
six-criterion coexistence score, the state label, the per-sample phase labels,
and the continuous-region finder.  Densities are modelled as exact rationals;
the standard deviation (the only irrational quantity) lives in `ℝ`.

Part B embeds the Birch-Murnaghan EOS script (`muna3rdpy.py`): the pressure
model, the coded bulk-modulus expression, and the bracketed root solve for the
volume at the target pressure.
-/

/-- Indicator of a proposition, modelling a Python boolean used as `0`/`1`
(e.g. `int(cv > 0.5)`). -/
noncomputable def indicP (P : Prop) : ℕ := @ite ℕ P (Classical.propDecidable P) 1 0

/-- Number of entries of a list satisfying `P`, modelling `np.sum` over a
boolean mask such as `densities > final_high`. -/
noncomputable def countTrue (P : ℚ → Prop) : List ℚ → ℕ
  | [] => 0
  | x :: xs => indicP (P x) + countTrue P xs

/-- Mean of the density array (`np.mean(densities)`). -/
def mean_density (l : List ℚ) : ℚ := l.sum / l.length

/-- Population variance of the density array; `np.std(densities)` squared
(numpy's default `ddof=0`). -/
def var_density (l : List ℚ) : ℚ :=
  (l.map (fun x => (x - mean_density l) ^ 2)).sum / l.length

/-- Population standard deviation (`np.std(densities)`). -/
noncomputable def std_density (l : List ℚ) : ℝ := Real.sqrt (var_density l)

/-- Coefficient of variation `cv = std_density / mean_density`. -/
noncomputable def cv (l : List ℚ) : ℝ := std_density l / (mean_density l : ℝ)

/-- Third central moment of the density array (divisor `n`, matching
`scipy.stats.skew` with its default `bias=True`). -/
def moment3 (l : List ℚ) : ℚ :=
  (l.map (fun x => (x - mean_density l) ^ 3)).sum / l.length

/-- Fourth central moment of the density array (divisor `n`, matching
`scipy.stats.kurtosis` with its default `bias=True`). -/
def moment4 (l : List ℚ) : ℚ :=
  (l.map (fun x => (x - mean_density l) ^ 4)).sum / l.length

/-- Sample skewness `m3 / m2^(3/2)` (`scipy.stats.skew`, `bias=True`). -/
noncomputable def density_skewness (l : List ℚ) : ℝ :=
  (moment3 l : ℝ) / Real.sqrt (var_density l) ^ 3

/-- Fisher excess kurtosis `m4 / m2^2 - 3` (`scipy.stats.kurtosis`,
`fisher=True`, `bias=True`). -/
noncomputable def density_kurtosis (l : List ℚ) : ℝ :=
  (moment4 l : ℝ) / (var_density l : ℝ) ^ 2 - 3

/-- Bimodality coefficient `(skew^2 + 1) / (kurtosis + 3)`. -/
noncomputable def bimodality_coeff (l : List ℚ) : ℝ :=
  (density_skewness l ^ 2 + 1) / (density_kurtosis l + 3)

/-- Ascending sort of the density array, as `np.percentile` performs
internally. -/
def sorted_densities (l : List ℚ) : List ℚ := l.insertionSort (· ≤ ·)

/-- Fractional rank `q/100 * (n - 1)` used by `np.percentile`'s default linear
interpolation. -/
def rankOf (l : List ℚ) (q : ℚ) : ℚ := q / 100 * ((l.length : ℚ) - 1)

/-- Integer part of the fractional rank. -/
def kOf (l : List ℚ) (q : ℚ) : ℕ := (⌊rankOf l q⌋).toNat

/-- Lower of the two order statistics the percentile interpolates between. -/
def aOf (l : List ℚ) (q : ℚ) : ℚ := (sorted_densities l).getD (kOf l q) 0

/-- Upper of the two order statistics the percentile interpolates between;
when the rank is integral and maximal there is no upper neighbour and the
lower one is used, making the interpolation term vanish. -/
def bOf (l : List ℚ) (q : ℚ) : ℚ := (sorted_densities l).getD (kOf l q + 1) (aOf l q)

/-- Linear-interpolation percentile (`np.percentile(densities, q)` with the
default method): the value at fractional rank `q/100 * (n-1)` of the sorted
array, interpolating between the two neighbouring order statistics. -/
def percentile (l : List ℚ) (q : ℚ) : ℚ :=
  aOf l q + (rankOf l q - (kOf l q : ℚ)) * (bOf l q - aOf l q)

/-- 25th percentile of the density array. -/
def p25 (l : List ℚ) : ℚ := percentile l 25

/-- 75th percentile of the density array. -/
def p75 (l : List ℚ) : ℚ := percentile l 75

/-- Interquartile range `p75 - p25`. -/
def iqr (l : List ℚ) : ℚ := p75 l - p25 l

/-- Percentile-based upper threshold `p75 + 1.5 * iqr` (Tukey fence). -/
def outlier_high (l : List ℚ) : ℚ := p75 l + 1.5 * iqr l

/-- Percentile-based lower threshold `p25 - 1.5 * iqr` (Tukey fence). -/
def outlier_low (l : List ℚ) : ℚ := p25 l - 1.5 * iqr l

/-- Statistical upper threshold `mean + 1.5 * std` (method 1). -/
noncomputable def high_threshold (l : List ℚ) : ℝ :=
  (mean_density l : ℝ) + 1.5 * std_density l

/-- Statistical lower threshold `mean - 1.5 * std` (method 1). -/
noncomputable def low_threshold (l : List ℚ) : ℝ :=
  (mean_density l : ℝ) - 1.5 * std_density l

/-- Combined upper threshold `min(high_threshold, outlier_high)`. -/
noncomputable def final_high (l : List ℚ) : ℝ :=
  min (high_threshold l) ((outlier_high l : ℝ))

/-- Combined lower threshold `max(low_threshold, outlier_low)`. -/
noncomputable def final_low (l : List ℚ) : ℝ :=
  max (low_threshold l) ((outlier_low l : ℝ))

/-- Size of the solid mask `densities > fh` for a given upper threshold. -/
noncomputable def solid_count_at (fh : ℝ) (l : List ℚ) : ℕ :=
  countTrue (fun d => (d : ℝ) > fh) l

/-- Size of the liquid mask `densities < fl` for a given lower threshold. -/
noncomputable def liquid_count_at (fl : ℝ) (l : List ℚ) : ℕ :=
  countTrue (fun d => (d : ℝ) < fl) l

/-- Size of the interface mask `~(solid_mask | liquid_mask)`. -/
noncomputable def interface_count_at (fh fl : ℝ) (l : List ℚ) : ℕ :=
  countTrue (fun d => ¬ ((d : ℝ) > fh ∨ (d : ℝ) < fl)) l

/-- Size of the solid mask at the combined thresholds. -/
noncomputable def solid_count (l : List ℚ) : ℕ := solid_count_at (final_high l) l

/-- Size of the liquid mask at the combined thresholds. -/
noncomputable def liquid_count (l : List ℚ) : ℕ := liquid_count_at (final_low l) l

/-- Size of the interface mask at the combined thresholds. -/
noncomputable def interface_count (l : List ℚ) : ℕ :=
  interface_count_at (final_high l) (final_low l) l

/-- Fraction of samples classified solid: `np.sum(solid_mask)/len(densities)`. -/
noncomputable def solid_fraction (l : List ℚ) : ℚ := (solid_count l : ℚ) / l.length

/-- Fraction of samples classified liquid. -/
noncomputable def liquid_fraction (l : List ℚ) : ℚ := (liquid_count l : ℚ) / l.length

/-- Fraction of samples classified interface. -/
noncomputable def interface_fraction (l : List ℚ) : ℚ :=
  (interface_count l : ℚ) / l.length

/-- Interior part of the discrete gradient: central differences
`(x[i+1] - x[i-1]) / 2`, with the one-sided difference at the right edge. -/
def gradCenter (prev cur : ℚ) : List ℚ → List ℚ
  | [] => [cur - prev]
  | next :: rest => (next - prev) / 2 :: gradCenter cur next rest

/-- Discrete gradient of the density sequence (`np.gradient`): one-sided
differences at the two ends, central differences in the interior. -/
def np_gradient : List ℚ → List ℚ
  | [] => []
  | [_] => [0]
  | x0 :: x1 :: rest => (x1 - x0) :: gradCenter x0 x1 rest

/-- Absolute gradients `np.abs(np.gradient(densities))`. -/
def gradients (l : List ℚ) : List ℚ := (np_gradient l).map (fun g => |g|)

/-- Mean absolute gradient (`np.mean(gradients)`). -/
def mean_gradient (l : List ℚ) : ℚ := (gradients l).sum / (gradients l).length

/-- Number of sharp-interface samples: indices where the absolute gradient
exceeds `mean_density * 0.1`. -/
def n_interfaces (l : List ℚ) : ℕ :=
  (gradients l).countP (fun g => decide (mean_density l * 0.1 < g))

/-- Score point for the bimodality criterion `n_peaks >= 2`; the peak count is
produced by the external library call `scipy.signal.find_peaks` and enters here
as a parameter. -/
noncomputable def bimodal_point (n_peaks : ℕ) : ℕ := indicP (2 ≤ n_peaks)

/-- Score point for the high coefficient-of-variation criterion `cv > 0.5`. -/
noncomputable def high_cv_point (l : List ℚ) : ℕ := indicP (cv l > 0.5)

/-- Score point for the phase-balance criterion
`solid_fraction > 0.1 and liquid_fraction > 0.1`. -/
noncomputable def phase_balance_point (l : List ℚ) : ℕ :=
  indicP (solid_fraction l > 0.1 ∧ liquid_fraction l > 0.1)

/-- Score point for the sharp-gradient criterion `mean_gradient > std_density`. -/
noncomputable def sharp_gradients_point (l : List ℚ) : ℕ :=
  indicP ((mean_gradient l : ℝ) > std_density l)

/-- Score point for the bimodality-coefficient criterion
`bimodality_coeff > 0.55`. -/
noncomputable def bimodality_point (l : List ℚ) : ℕ :=
  indicP (bimodality_coeff l > 0.55)

/-- Score point for the multiple-interfaces criterion `n_interfaces > 2`. -/
noncomputable def interfaces_point (l : List ℚ) : ℕ := indicP (n_interfaces l > 2)

/-- Coexistence score: the sum of the six binary criteria. -/
noncomputable def coexistence_score (l : List ℚ) (n_peaks : ℕ) : ℕ :=
  bimodal_point n_peaks + high_cv_point l + phase_balance_point l +
    sharp_gradients_point l + bimodality_point l + interfaces_point l

/-- System-state label as a function of the coexistence score and the solid and
liquid fractions, mirroring the script's if/elif chain. -/
def system_state (score : ℕ) (sf lf : ℚ) : String :=
  if 4 ≤ score then "STRONG SOLID-LIQUID COEXISTENCE"
  else if 3 ≤ score then "SOLID-LIQUID COEXISTENCE"
  else if 2 ≤ score then "POSSIBLE COEXISTENCE"
  else if 0.8 < sf then "PREDOMINANTLY SOLID"
  else if 0.8 < lf then "PREDOMINANTLY LIQUID"
  else "SINGLE PHASE"

/-- Per-sample phase label for thresholds `fh`, `fl`: the array is initialised
to `INTERFACE`, then the solid mask is assigned `SOLID`, then the liquid mask
is assigned `LIQUID`; the later liquid assignment overwrites, so the resulting
value is `LIQUID` when `d < fl`, else `SOLID` when `d > fh`, else `INTERFACE`. -/
noncomputable def phase_label_at (fh fl : ℝ) (d : ℚ) : String :=
  @ite _ ((d : ℝ) < fl) (Classical.propDecidable _) ("LIQUID")
    (@ite _ ((d : ℝ) > fh) (Classical.propDecidable _) ("SOLID") ("INTERFACE"))

/-- Per-sample phase labels of a density array for thresholds `fh`, `fl`. -/
noncomputable def phase_labels_at (fh fl : ℝ) (l : List ℚ) : List String :=
  l.map (phase_label_at fh fl)

/-- One step of the scan in `find_continuous_regions`: `val and start is None`
opens a run at `i`; `not val and start is not None` closes the run at `i-1`. -/
def fcrStep : (List (ℕ × ℕ) × Option ℕ) → (ℕ × Bool) → (List (ℕ × ℕ) × Option ℕ)
  | (regions, start), (i, val) =>
    if val then
      match start with
      | none => (regions, some i)
      | some s => (regions, some s)
    else
      match start with
      | some s => (regions ++ [(s, i - 1)], none)
      | none => (regions, none)

/-- Final step after the scan in `find_continuous_regions`: a run still open
when the loop ends is closed at the last index of the mask. -/
def closeRuns (acc : List (ℕ × ℕ) × Option ℕ) (last : ℕ) : List (ℕ × ℕ) :=
  match acc.2 with
  | some s => acc.1 ++ [(s, last)]
  | none => acc.1

/-- Continuous-regions finder: scans the mask with `fcrStep` over the
enumerated entries and closes any run still open at the end of the mask at
index `len(mask) - 1`. -/
def find_continuous_regions (mask : List Bool) : List (ℕ × ℕ) :=
  closeRuns (mask.enum.foldl fcrStep ([], none)) (mask.length - 1)

/-- Structural-recursion form of the `find_continuous_regions` scan: `i` is the
index of the next mask entry and `start` the start index of the currently open
run; proven equal to the fold below. -/
def runsAux : ℕ → Option ℕ → List Bool → List (ℕ × ℕ)
  | i, some s, [] => [(s, i - 1)]
  | _, none, [] => []
  | i, none, true :: r => runsAux (i + 1) (some i) r
  | i, none, false :: r => runsAux (i + 1) none r
  | i, some s, true :: r => runsAux (i + 1) (some s) r
  | i, some s, false :: r => (s, i - 1) :: runsAux (i + 1) none r

/-- Third-order Birch-Murnaghan pressure `P(V)` with parameters
`V0`, `B0`, `B0_prime`. -/
noncomputable def birch_murnaghan (V V0 B0 B0_prime : ℝ) : ℝ :=
  3 / 2 * B0 * ((V0 / V) ^ ((7 : ℝ) / 3) - (V0 / V) ^ ((5 : ℝ) / 3)) *
    (1 + 3 / 4 * (B0_prime - 4) * ((V0 / V) ^ ((2 : ℝ) / 3) - 1))

/-- Bulk-modulus expression exactly as coded in the script; its `B0_prime`
argument does not occur in the body. -/
noncomputable def bulk_modulus (V V0 B0 B0_prime : ℝ) : ℝ :=
  -V * (-(V0 ^ ((5 : ℝ) / 3) * B0 * (5 * V ^ ((2 : ℝ) / 3) - 7 * V0 ^ ((2 : ℝ) / 3))) /
    (2 * V ^ ((10 : ℝ) / 3)))

/-- Modelled from the spec: the external library routine
`scipy.optimize.root_scalar` with a bracket `[a, b]` (Brent's method itself is
outside the repository).  Per the spec it fails with the library's
root-not-found error when `f(a)` and `f(b)` do not have different signs, and
otherwise returns a root inside the bracket. -/
noncomputable def root_scalar (f : ℝ → ℝ) (a b : ℝ) : Except String ℝ :=
  @ite _ (0 < f a * f b) (Classical.propDecidable _)
    (Except.error ("f(a) and f(b) must have different signs"))
    (@dite _ (∃ v, a ≤ v ∧ v ≤ b ∧ f v = 0) (Classical.propDecidable _)
      (fun h => Except.ok h.choose) (fun _ => Except.ok a))

/-- Volume of one phase at the target pressure, as solved by the script:
`root_scalar(lambda v: birch_murnaghan(v, *params) - TARGET_PRESSURE,
bracket=[V.min(), V.max()*1.5])`. -/
noncomputable def vol_at_target (V0 B0 B0_prime Vmin Vmax target : ℝ) :
    Except String ℝ :=
  root_scalar (fun v => birch_murnaghan v V0 B0 B0_prime - target)
    Vmin (Vmax * 1.5)

/-! ### Basic facts about the indicator and mask counts -/

theorem indicP_pos {P : Prop} (h : P) : indicP P = 1 := if_pos h

theorem indicP_neg {P : Prop} (h : ¬ P) : indicP P = 0 := if_neg h

theorem indicP_le_one (P : Prop) : indicP P ≤ 1 := by
  unfold indicP
  split <;> simp

theorem indicP_eq_one_iff (P : Prop) : indicP P = 1 ↔ P := by
  unfold indicP
  split <;> simp [*]

/-! ### C4: the combined thresholds are the conservative pair -/

theorem outlier_high_cast (l : List ℚ) :
    ((outlier_high l : ℚ) : ℝ) = ((p75 l : ℚ) : ℝ) + 1.5 * ((iqr l : ℚ) : ℝ) := by
  unfold outlier_high
  push_cast
  ring

theorem outlier_low_cast (l : List ℚ) :
    ((outlier_low l : ℚ) : ℝ) = ((p25 l : ℚ) : ℝ) - 1.5 * ((iqr l : ℚ) : ℝ) := by
  unfold outlier_low
  push_cast
  ring

/-- C4: `final_high = min(mean + 1.5*std, p75 + 1.5*IQR)` and
`final_low = max(mean - 1.5*std, p25 - 1.5*IQR)`, so the combined thresholds
are bounded by both heuristic methods' thresholds. -/
theorem C4_final_thresholds_conservative (l : List ℚ) :
    final_high l =
      min ((mean_density l : ℝ) + 1.5 * std_density l)
        (((p75 l : ℚ) : ℝ) + 1.5 * ((iqr l : ℚ) : ℝ)) ∧
    final_high l ≤ high_threshold l ∧ final_high l ≤ ((outlier_high l : ℚ) : ℝ) ∧
    final_low l =
      max ((mean_density l : ℝ) - 1.5 * std_density l)
        (((p25 l : ℚ) : ℝ) - 1.5 * ((iqr l : ℚ) : ℝ)) ∧
    low_threshold l ≤ final_low l ∧ ((outlier_low l : ℚ) : ℝ) ≤ final_low l := by
  refine ⟨?_, min_le_left _ _, min_le_right _ _, ?_, le_max_left _ _, le_max_right _ _⟩
  · rw [final_high, high_threshold, outlier_high_cast]
  · rw [final_low, low_threshold, outlier_low_cast]

/-! ### C2: the state label follows the 6-rule priority order -/

/-- C2: the state label is the first-match-wins function of
`(score, solid_fraction, liquid_fraction)` described by the six ordered rules. -/
theorem C2_system_state_priority (score : ℕ) (sf lf : ℚ) :
    (4 ≤ score → system_state score sf lf = "STRONG SOLID-LIQUID COEXISTENCE") ∧
    (score < 4 → 3 ≤ score → system_state score sf lf = "SOLID-LIQUID COEXISTENCE") ∧
    (score < 3 → 2 ≤ score → system_state score sf lf = "POSSIBLE COEXISTENCE") ∧
    (score < 2 → 0.8 < sf → system_state score sf lf = "PREDOMINANTLY SOLID") ∧
    (score < 2 → sf ≤ 0.8 → 0.8 < lf →
      system_state score sf lf = "PREDOMINANTLY LIQUID") ∧
    (score < 2 → sf ≤ 0.8 → lf ≤ 0.8 → system_state score sf lf = "SINGLE PHASE") := by
  refine ⟨?_, ?_, ?_, ?_, ?_, ?_⟩
  · intro h
    rw [system_state, if_pos h]
  · intro h1 h2
    rw [system_state, if_neg (by omega), if_pos h2]
  · intro h1 h2
    rw [system_state, if_neg (by omega), if_neg (by omega), if_pos h2]
  · intro h1 h2
    rw [system_state, if_neg (by omega), if_neg (by omega), if_neg (by omega),
      if_pos h2]
  · intro h1 h2 h3
    rw [system_state, if_neg (by omega), if_neg (by omega), if_neg (by omega),
      if_neg (not_lt.mpr h2), if_pos h3]
  · intro h1 h2 h3
    rw [system_state, if_neg (by omega), if_neg (by omega), if_neg (by omega),
      if_neg (not_lt.mpr h2), if_neg (not_lt.mpr h3)]

/-- C2 witness: the theorem applied at concrete inputs. -/
theorem C2_system_state_priority_witness :
    system_state 5 0 0 = "STRONG SOLID-LIQUID COEXISTENCE" ∧
    system_state 0 (9/10) 0 = "PREDOMINANTLY SOLID" ∧
    system_state 1 0 0 = "SINGLE PHASE" := by
  refine ⟨(C2_system_state_priority 5 0 0).1 (by norm_num), ?_, ?_⟩
  · exact (C2_system_state_priority 0 (9/10) 0).2.2.2.1 (by norm_num) (by norm_num)
  · exact (C2_system_state_priority 1 0 0).2.2.2.2.2 (by norm_num) (by norm_num)
      (by norm_num)

/-! ### C3: the score is a sum of six 0/1 criteria, hence in [0, 6] -/

/-- C3: the coexistence score is the sum of exactly six criteria, each
contributing 0 or 1 point, so it always lies in `[0, 6]`. -/
theorem C3_score_sum_of_six_criteria (l : List ℚ) (n_peaks : ℕ) :
    coexistence_score l n_peaks =
      bimodal_point n_peaks + high_cv_point l + phase_balance_point l +
        sharp_gradients_point l + bimodality_point l + interfaces_point l ∧
    bimodal_point n_peaks ≤ 1 ∧ high_cv_point l ≤ 1 ∧ phase_balance_point l ≤ 1 ∧
    sharp_gradients_point l ≤ 1 ∧ bimodality_point l ≤ 1 ∧
    interfaces_point l ≤ 1 ∧ coexistence_score l n_peaks ≤ 6 := by
  refine ⟨rfl, indicP_le_one _, indicP_le_one _, indicP_le_one _, indicP_le_one _,
    indicP_le_one _, indicP_le_one _, ?_⟩
  have h1 := indicP_le_one (2 ≤ n_peaks)
  have h2 := indicP_le_one (cv l > 0.5)
  have h3 := indicP_le_one (solid_fraction l > 0.1 ∧ liquid_fraction l > 0.1)
  have h4 := indicP_le_one ((mean_gradient l : ℝ) > std_density l)
  have h5 := indicP_le_one (bimodality_coeff l > 0.55)
  have h6 := indicP_le_one (n_interfaces l > 2)
  unfold coexistence_score bimodal_point high_cv_point phase_balance_point
    sharp_gradients_point bimodality_point interfaces_point
  omega

/-! ### C7: the coded bulk modulus ignores its B0_prime argument -/

/-- C7: `bulk_modulus(V, V0, B0, B0_prime)` has the same value for every
`B0_prime`; the coded expression does not mention it. -/
theorem C7_bulk_modulus_const_in_B0_prime (V V0 B0 p q : ℝ)
    (hV : 0 < V) (hV0 : 0 < V0) :
    bulk_modulus V V0 B0 p = bulk_modulus V V0 B0 q := rfl

/-- C7 witness: the theorem applied at a concrete input. -/
theorem C7_bulk_modulus_const_witness :
    (0 : ℝ) < 1 ∧ bulk_modulus 1 1 1 0 = bulk_modulus 1 1 1 5 :=
  ⟨one_pos, C7_bulk_modulus_const_in_B0_prime 1 1 1 0 5 one_pos one_pos⟩

/-! ### C8: the high-cv criterion is strict -/

/-- C8: the `high_cv` criterion uses the strict comparison `cv > 0.5`; at
`cv = 0.5` exactly it contributes 0 points, and it contributes 1 point
precisely when `cv > 0.5`. -/
theorem C8_high_cv_strict (l : List ℚ) :
    (cv l = 1/2 → high_cv_point l = 0) ∧ (high_cv_point l = 1 ↔ 0.5 < cv l) := by
  constructor
  · intro h
    unfold high_cv_point
    apply indicP_neg
    rw [h]
    norm_num
  · exact indicP_eq_one_iff _

/-- C8 witness: the density array `[1/2, 3/2]` has mean `1` and standard
deviation `1/2`, so `cv = 1/2` exactly, and the criterion scores 0. -/
theorem C8_high_cv_strict_witness :
    cv [1/2, 3/2] = 1/2 ∧ high_cv_point [1/2, 3/2] = 0 := by
  have hm : mean_density [1/2, 3/2] = 1 := by
    norm_num [mean_density, List.sum_cons, List.sum_nil]
  have hv : var_density [1/2, 3/2] = 1/4 := by
    norm_num [var_density, hm, List.map_cons, List.map_nil, List.sum_cons,
      List.sum_nil]
  have hcv : cv [1/2, 3/2] = 1/2 := by
    unfold cv std_density
    rw [hv, hm]
    push_cast
    rw [show ((1 : ℝ)/4) = (1/2 : ℝ)^2 by norm_num,
      Real.sqrt_sq (by norm_num : (0:ℝ) ≤ 1/2)]
    norm_num
  exact ⟨hcv, (C8_high_cv_strict [1/2, 3/2]).1 hcv⟩

/-! ### C10: behaviour of the masks and labels at inverted thresholds -/

/-- C10: when the thresholds invert (`fh < fl`), a sample strictly between them
satisfies both the solid and the liquid mask, is counted in both the solid and
the liquid count, and its phase label is `LIQUID` because the liquid
assignment is applied after the solid assignment and overwrites it. -/
theorem C10_inverted_thresholds_double_count (fh fl : ℝ) (d : ℚ)
    (hinv : fh < fl) (h1 : fh < (d : ℝ)) (h2 : (d : ℝ) < fl) :
    ((d : ℝ) > fh ∧ (d : ℝ) < fl) ∧
    solid_count_at fh [d] = 1 ∧ liquid_count_at fl [d] = 1 ∧
    phase_label_at fh fl d = "LIQUID" ∧
    phase_labels_at fh fl [d] = ["LIQUID"] := by
  have hs : solid_count_at fh [d] = 1 := by
    simp [solid_count_at, countTrue, indicP_pos h1]
  have hl : liquid_count_at fl [d] = 1 := by
    simp [liquid_count_at, countTrue, indicP_pos h2]
  have hlab : phase_label_at fh fl d = "LIQUID" := by
    unfold phase_label_at
    rw [if_pos h2]
  refine ⟨⟨h1, h2⟩, hs, hl, hlab, ?_⟩
  unfold phase_labels_at
  rw [List.map_cons, List.map_nil, hlab]

/-- C10 witness: the theorem applied at thresholds `fh = 0 < fl = 1` and sample
`d = 1/2`. -/
theorem C10_inverted_thresholds_witness :
    ((0 : ℝ) < 1 ∧ (0 : ℝ) < ((1/2 : ℚ) : ℝ) ∧ ((1/2 : ℚ) : ℝ) < 1) ∧
    (phase_label_at 0 1 (1/2) = "LIQUID" ∧ solid_count_at 0 [1/2] = 1 ∧
      liquid_count_at 1 [1/2] = 1) := by
  have h1 : (0 : ℝ) < ((1/2 : ℚ) : ℝ) := by norm_num
  have h2 : ((1/2 : ℚ) : ℝ) < 1 := by norm_num
  have h := C10_inverted_thresholds_double_count 0 1 (1/2) one_pos h1 h2
  exact ⟨⟨one_pos, h1, h2⟩, h.2.2.2.1, h.2.1, h.2.2.1⟩

/-! ### The region finder: bridge from the fold to structural recursion -/

theorem fcrStep_true_none (regions : List (ℕ × ℕ)) (i : ℕ) :
    fcrStep (regions, none) (i, true) = (regions, some i) := rfl

theorem fcrStep_true_some (regions : List (ℕ × ℕ)) (s i : ℕ) :
    fcrStep (regions, some s) (i, true) = (regions, some s) := rfl

theorem fcrStep_false_none (regions : List (ℕ × ℕ)) (i : ℕ) :
    fcrStep (regions, none) (i, false) = (regions, none) := rfl

theorem fcrStep_false_some (regions : List (ℕ × ℕ)) (s i : ℕ) :
    fcrStep (regions, some s) (i, false) = (regions ++ [(s, i - 1)], none) := rfl

theorem closeRuns_foldl (rest : List Bool) :
    ∀ (i : ℕ) (regions : List (ℕ × ℕ)) (start : Option ℕ),
      closeRuns ((List.enumFrom i rest).foldl fcrStep (regions, start))
          (i + rest.length - 1)
        = regions ++ runsAux i start rest := by
  induction rest with
  | nil =>
    intro i regions start
    cases start <;> simp [closeRuns, runsAux]
  | cons a r ih =>
    intro i regions start
    have hidx : i + (a :: r).length - 1 = (i + 1) + r.length - 1 := by
      simp only [List.length_cons]
      omega
    rw [List.enumFrom_cons, List.foldl_cons, hidx]
    cases a <;> cases start
    · rw [fcrStep_false_none, ih]
      rfl
    · rename_i s
      rw [fcrStep_false_some, ih]
      simp [runsAux]
    · rw [fcrStep_true_none, ih]
      rfl
    · rename_i s
      rw [fcrStep_true_some, ih]
      rfl

theorem fcr_eq_runsAux (mask : List Bool) :
    find_continuous_regions mask = runsAux 0 none mask := by
  have h := closeRuns_foldl mask 0 [] none
  simpa [find_continuous_regions, List.enum] using h

/-! ### Structural properties of `runsAux` -/

theorem runsAux_forall (r : List Bool) :
    ∀ (i : ℕ) (start : Option ℕ), (∀ s, start = some s → s < i) →
      ∀ p ∈ runsAux i start r,
        start.getD i ≤ p.1 ∧ p.1 ≤ p.2 ∧ p.2 + 1 ≤ i + r.length := by
  induction r with
  | nil =>
    intro i start hs p hp
    cases start with
    | none => simp [runsAux] at hp
    | some s =>
      have hsi := hs s rfl
      simp [runsAux] at hp
      subst hp
      simp only [Option.getD_some, List.length_nil]
      omega
  | cons a r ih =>
    intro i start hs p hp
    cases a <;> cases start
    · have h := ih (i + 1) none (by simp) p (by simpa [runsAux] using hp)
      simp only [Option.getD_none, List.length_cons] at h ⊢
      omega
    · rename_i s
      have hsi := hs s rfl
      simp only [runsAux, List.mem_cons] at hp
      rcases hp with rfl | hp
      · simp only [Option.getD_some, List.length_cons]
        omega
      · have h := ih (i + 1) none (by simp) p hp
        simp only [Option.getD_none, List.length_cons] at h ⊢
        simp only [Option.getD_some]
        omega
    · have h := ih (i + 1) (some i)
        (by intro s hs'; injection hs' with h'; omega) p (by simpa [runsAux] using hp)
      simp only [Option.getD_some, Option.getD_none, List.length_cons] at h ⊢
      omega
    · rename_i s
      have hsi := hs s rfl
      have h := ih (i + 1) (some s)
        (by intro t ht; injection ht with h'; omega) p (by simpa [runsAux] using hp)
      simp only [Option.getD_some, List.length_cons] at h ⊢
      omega

theorem runsAux_pairwise (r : List Bool) :
    ∀ (i : ℕ) (start : Option ℕ), (∀ s, start = some s → s < i) →
      List.Pairwise (fun p q : ℕ × ℕ => p.2 + 1 < q.1) (runsAux i start r) := by
  induction r with
  | nil =>
    intro i start hs
    cases start <;> simp [runsAux]
  | cons a r ih =>
    intro i start hs
    cases a <;> cases start
    · simp only [runsAux]
      exact ih (i + 1) none (by simp)
    · rename_i s
      have hsi := hs s rfl
      simp only [runsAux]
      refine List.Pairwise.cons ?_ (ih (i + 1) none (by simp))
      intro q hq
      have h := runsAux_forall r (i + 1) none (by simp) q hq
      simp only [Option.getD_none] at h
      omega
    · simp only [runsAux]
      exact ih (i + 1) (some i) (by intro s hs'; injection hs' with h'; omega)
    · rename_i s
      simp only [runsAux]
      exact ih (i + 1) (some s)
        (by intro t ht; injection ht with h'; have := hs s rfl; omega)

theorem runsAux_cover (r : List Bool) :
    ∀ (i : ℕ) (start : Option ℕ), (∀ s, start = some s → s < i) → ∀ j : ℕ,
      (∃ p ∈ runsAux i start r, p.1 ≤ j ∧ j ≤ p.2) ↔
        ((∃ s, start = some s ∧ s ≤ j ∧ j < i) ∨
          (i ≤ j ∧ j < i + r.length ∧ r.getD (j - i) false = true)) := by
  induction r with
  | nil =>
    intro i start hs j
    cases start with
    | none => simp [runsAux]
    | some s =>
      have hsi := hs s rfl
      simp [runsAux]
      omega
  | cons a r ih =>
    intro i start hs j
    cases a <;> cases start
    · -- head false, no open run
      simp only [runsAux]
      rw [ih (i + 1) none (by simp) j]
      constructor
      · rintro (⟨t, ht, -⟩ | ⟨h1, h2, h3⟩)
        · exact Option.noConfusion ht
        · right
          refine ⟨by omega, by simp only [List.length_cons]; omega, ?_⟩
          rw [show j - i = (j - (i + 1)) + 1 by omega, List.getD_cons_succ]
          exact h3
      · rintro (⟨t, ht, -⟩ | ⟨h1, h2, h3⟩)
        · exact Option.noConfusion ht
        · rcases Nat.lt_or_ge j (i + 1) with hji | hji
          · exfalso
            rw [show j - i = 0 by omega] at h3
            simp at h3
          · right
            refine ⟨by omega, by simp only [List.length_cons] at h2; omega, ?_⟩
            rw [show j - i = (j - (i + 1)) + 1 by omega, List.getD_cons_succ] at h3
            exact h3
    · -- head false, open run closes at i - 1
      rename_i s
      have hsi := hs s rfl
      simp only [runsAux]
      constructor
      · rintro ⟨p, hp, h1, h2⟩
        rcases List.mem_cons.mp hp with rfl | hp
        · left
          exact ⟨s, rfl, h1, by omega⟩
        · have := (ih (i + 1) none (by simp) j).mp ⟨p, hp, h1, h2⟩
          rcases this with ⟨t, ht, -⟩ | ⟨h3, h4, h5⟩
          · exact Option.noConfusion ht
          · right
            refine ⟨by omega, by simp only [List.length_cons]; omega, ?_⟩
            rw [show j - i = (j - (i + 1)) + 1 by omega, List.getD_cons_succ]
            exact h5
      · rintro (⟨t, ht, h1, h2⟩ | ⟨h1, h2, h3⟩)
        · injection ht with ht'
          subst ht'
          exact ⟨(s, i - 1), List.mem_cons_self _ _, h1, by omega⟩
        · rcases Nat.lt_or_ge j (i + 1) with hji | hji
          · exfalso
            rw [show j - i = 0 by omega] at h3
            simp at h3
          · obtain ⟨p, hp, hp1, hp2⟩ := (ih (i + 1) none (by simp) j).mpr
              (Or.inr ⟨by omega, by simp only [List.length_cons] at h2; omega, by
                rw [show j - i = (j - (i + 1)) + 1 by omega,
                  List.getD_cons_succ] at h3
                exact h3⟩)
            exact ⟨p, List.mem_cons_of_mem _ hp, hp1, hp2⟩
    · -- head true, run opens at i
      simp only [runsAux]
      rw [ih (i + 1) (some i) (by intro t ht; injection ht with h'; omega) j]
      constructor
      · rintro (⟨t, ht, h1, h2⟩ | ⟨h1, h2, h3⟩)
        · injection ht with ht'
          subst ht'
          right
          refine ⟨h1, by simp only [List.length_cons]; omega, ?_⟩
          rw [show j - i = 0 by omega]
          simp
        · right
          refine ⟨by omega, by simp only [List.length_cons]; omega, ?_⟩
          rw [show j - i = (j - (i + 1)) + 1 by omega, List.getD_cons_succ]
          exact h3
      · rintro (⟨t, ht, -⟩ | ⟨h1, h2, h3⟩)
        · exact Option.noConfusion ht
        · rcases Nat.lt_or_ge j (i + 1) with hji | hji
          · left
            exact ⟨i, rfl, by omega, by omega⟩
          · right
            refine ⟨by omega, by simp only [List.length_cons] at h2; omega, ?_⟩
            rw [show j - i = (j - (i + 1)) + 1 by omega, List.getD_cons_succ] at h3
            exact h3
    · -- head true, run stays open
      rename_i s
      have hsi := hs s rfl
      simp only [runsAux]
      rw [ih (i + 1) (some s)
        (by intro t ht; injection ht with h'; omega) j]
      constructor
      · rintro (⟨t, ht, h1, h2⟩ | ⟨h1, h2, h3⟩)
        · injection ht with ht'
          subst ht'
          rcases Nat.lt_or_ge j i with hji | hji
          · left
            exact ⟨s, rfl, h1, hji⟩
          · right
            refine ⟨hji, by simp only [List.length_cons]; omega, ?_⟩
            rw [show j - i = 0 by omega]
            simp
        · right
          refine ⟨by omega, by simp only [List.length_cons]; omega, ?_⟩
          rw [show j - i = (j - (i + 1)) + 1 by omega, List.getD_cons_succ]
          exact h3
      · rintro (⟨t, ht, h1, h2⟩ | ⟨h1, h2, h3⟩)
        · injection ht with ht'
          subst ht'
          left
          exact ⟨s, rfl, h1, by omega⟩
        · rcases Nat.lt_or_ge j (i + 1) with hji | hji
          · left
            exact ⟨s, rfl, by omega, by omega⟩
          · right
            refine ⟨by omega, by simp only [List.length_cons] at h2; omega, ?_⟩
            rw [show j - i = (j - (i + 1)) + 1 by omega, List.getD_cons_succ] at h3
            exact h3

/-! ### Properties of `find_continuous_regions` -/

theorem fcr_bounds (mask : List Bool) :
    ∀ p ∈ find_continuous_regions mask, p.1 ≤ p.2 ∧ p.2 < mask.length := by
  intro p hp
  rw [fcr_eq_runsAux] at hp
  have h := runsAux_forall mask 0 none (by simp) p hp
  exact ⟨h.2.1, by omega⟩

theorem fcr_sep (mask : List Bool) :
    List.Pairwise (fun p q : ℕ × ℕ => p.2 + 1 < q.1)
      (find_continuous_regions mask) := by
  rw [fcr_eq_runsAux]
  exact runsAux_pairwise mask 0 none (by simp)

theorem fcr_cover (mask : List Bool) (j : ℕ) :
    (∃ p ∈ find_continuous_regions mask, p.1 ≤ j ∧ j ≤ p.2) ↔
      (j < mask.length ∧ mask.getD j false = true) := by
  rw [fcr_eq_runsAux]
  have h := runsAux_cover mask 0 none (by simp) j
  simpa using h

theorem pairwise_mem_cases {α : Type} {rel : α → α → Prop} (L : List α)
    (h : List.Pairwise rel L) :
    ∀ p ∈ L, ∀ q ∈ L, p = q ∨ rel p q ∨ rel q p := by
  induction L with
  | nil => intro p hp; simp at hp
  | cons a t ih =>
    rw [List.pairwise_cons] at h
    intro p hp q hq
    rcases List.mem_cons.mp hp with hpa | hp2
    · rcases List.mem_cons.mp hq with hqa | hq2
      · exact Or.inl (hpa.trans hqa.symm)
      · subst hpa
        exact Or.inr (Or.inl (h.1 q hq2))
    · rcases List.mem_cons.mp hq with hqa | hq2
      · subst hqa
        exact Or.inr (Or.inr (h.1 p hp2))
      · exact ih h.2 p hp2 q hq2

theorem fcr_run_maximal (mask : List Bool) :
    ∀ p ∈ find_continuous_regions mask,
      (∀ j, p.1 ≤ j → j ≤ p.2 → mask.getD j false = true) ∧
      (p.1 = 0 ∨ mask.getD (p.1 - 1) false = false) ∧
      (p.2 = mask.length - 1 ∨ mask.getD (p.2 + 1) false = false) := by
  intro p hp
  have hb := fcr_bounds mask p hp
  refine ⟨?_, ?_, ?_⟩
  · intro j h1 h2
    exact ((fcr_cover mask j).mp ⟨p, hp, h1, h2⟩).2
  · by_cases h0 : p.1 = 0
    · exact Or.inl h0
    · right
      by_contra hne
      have htrue : mask.getD (p.1 - 1) false = true := by
        revert hne
        cases mask.getD (p.1 - 1) false <;> simp
      obtain ⟨q, hq, hq1, hq2⟩ := (fcr_cover mask (p.1 - 1)).mpr
        ⟨by omega, htrue⟩
      rcases pairwise_mem_cases _ (fcr_sep mask) p hp q hq with rfl | hlt | hlt
      · omega
      · omega
      · omega
  · by_cases h0 : p.2 = mask.length - 1
    · exact Or.inl h0
    · right
      by_contra hne
      have htrue : mask.getD (p.2 + 1) false = true := by
        revert hne
        cases mask.getD (p.2 + 1) false <;> simp
      obtain ⟨q, hq, hq1, hq2⟩ := (fcr_cover mask (p.2 + 1)).mpr
        ⟨by omega, htrue⟩
      rcases pairwise_mem_cases _ (fcr_sep mask) p hp q hq with rfl | hlt | hlt
      · omega
      · omega
      · omega

/-! ### C5 and C9: the continuous-region finder -/

/-- C5: `find_continuous_regions` on the three stated masks returns the stated
interval lists, and in general each returned interval is a maximal run of
consecutive true entries, with the intervals in left-to-right order separated
by at least one false entry. -/
theorem C5_find_continuous_regions_runs :
    find_continuous_regions [true, true, false, true] = [(0, 1), (3, 3)] ∧
    find_continuous_regions [false, false, false, false] = [] ∧
    find_continuous_regions [true, true, true, true, true] = [(0, 4)] ∧
    (∀ mask : List Bool, ∀ p ∈ find_continuous_regions mask,
      (∀ j, p.1 ≤ j → j ≤ p.2 → mask.getD j false = true) ∧
      (p.1 = 0 ∨ mask.getD (p.1 - 1) false = false) ∧
      (p.2 = mask.length - 1 ∨ mask.getD (p.2 + 1) false = false)) ∧
    (∀ mask : List Bool, List.Pairwise (fun p q : ℕ × ℕ => p.2 + 1 < q.1)
      (find_continuous_regions mask)) :=
  ⟨by decide, by decide, by decide, fcr_run_maximal, fcr_sep⟩

/-- C5 witness: the general clauses applied to the concrete mask
`[true, true, false, true]` and its first returned interval. -/
theorem C5_find_continuous_regions_witness :
    ((0, 1) ∈ find_continuous_regions [true, true, false, true]) ∧
    [true, true, false, true].getD 1 false = true :=
  ⟨by decide,
    (C5_find_continuous_regions_runs.2.2.2.1 [true, true, false, true] (0, 1)
      (by decide)).1 1 (by decide) (by decide)⟩

/-- C9: every interval returned by `find_continuous_regions` satisfies
`0 ≤ start ≤ end < length`, the intervals are pairwise disjoint and strictly
increasing, and an index is contained in some returned interval exactly when
the mask is true there. -/
theorem C9_region_invariant (mask : List Bool) :
    (∀ p ∈ find_continuous_regions mask, p.1 ≤ p.2 ∧ p.2 < mask.length) ∧
    List.Pairwise (fun p q : ℕ × ℕ => p.2 < q.1) (find_continuous_regions mask) ∧
    (∀ i : ℕ, i < mask.length →
      ((∃ p ∈ find_continuous_regions mask, p.1 ≤ i ∧ i ≤ p.2) ↔
        mask.getD i false = true)) := by
  refine ⟨fcr_bounds mask, ?_, ?_⟩
  · exact (fcr_sep mask).imp (fun h => by omega)
  · intro i hi
    rw [fcr_cover]
    simp [hi]

/-- C9 witness: the containment criterion applied to a concrete mask and
index. -/
theorem C9_region_invariant_witness :
    0 < ([true, false, true] : List Bool).length ∧
    ((∃ p ∈ find_continuous_regions [true, false, true], p.1 ≤ 0 ∧ 0 ≤ p.2) ↔
      ([true, false, true] : List Bool).getD 0 false = true) :=
  ⟨by decide, (C9_region_invariant [true, false, true]).2.2 0 (by decide)⟩

/-! ### Counting lemmas for the mask model -/

theorem countTrue_le_length (P : ℚ → Prop) (l : List ℚ) :
    countTrue P l ≤ l.length := by
  induction l with
  | nil => simp [countTrue]
  | cons a t ih =>
    have := indicP_le_one (P a)
    simp only [countTrue, List.length_cons]
    omega

theorem countTrue_perm {l l' : List ℚ} (h : List.Perm l l') (P : ℚ → Prop) :
    countTrue P l = countTrue P l' := by
  induction h with
  | nil => rfl
  | cons x h ih => simp [countTrue, ih]
  | swap x y t => simp [countTrue]; omega
  | trans h1 h2 ih1 ih2 => exact ih1.trans ih2

theorem countTrue_sublist {l₁ l₂ : List ℚ} (h : l₁.Sublist l₂) (P : ℚ → Prop) :
    countTrue P l₁ ≤ countTrue P l₂ := by
  induction h with
  | slnil => exact le_rfl
  | cons a h ih =>
    simp only [countTrue]
    omega
  | cons₂ a h ih =>
    simp only [countTrue]
    omega

theorem countTrue_eq_length {P : ℚ → Prop} {l : List ℚ} (h : ∀ x ∈ l, P x) :
    countTrue P l = l.length := by
  induction l with
  | nil => simp [countTrue]
  | cons a t ih =>
    simp only [countTrue, List.length_cons,
      indicP_pos (h a (List.mem_cons_self a t)),
      ih (fun x hx => h x (List.mem_cons_of_mem a hx))]
    omega

theorem countTrue_eq_zero {P : ℚ → Prop} {l : List ℚ} (h : ∀ x ∈ l, ¬ P x) :
    countTrue P l = 0 := by
  induction l with
  | nil => simp [countTrue]
  | cons a t ih =>
    simp only [countTrue, indicP_neg (h a (List.mem_cons_self a t)),
      ih (fun x hx => h x (List.mem_cons_of_mem a hx))]

theorem countTrue_partition (P Q : ℚ → Prop) (l : List ℚ)
    (h : ∀ x ∈ l, ¬ (P x ∧ Q x)) :
    countTrue P l + countTrue Q l + countTrue (fun x => ¬ (P x ∨ Q x)) l
      = l.length := by
  induction l with
  | nil => simp [countTrue]
  | cons a t ih =>
    have ht := ih (fun x hx => h x (List.mem_cons_of_mem a hx))
    have ha := h a (List.mem_cons_self a t)
    by_cases hP : P a
    · have hQ : ¬ Q a := fun hq => ha ⟨hP, hq⟩
      simp only [countTrue, indicP_pos hP, indicP_neg hQ,
        indicP_neg (not_not_intro (Or.inl hP)), List.length_cons]
      omega
    · by_cases hQ : Q a
      · simp only [countTrue, indicP_neg hP, indicP_pos hQ,
          indicP_neg (not_not_intro (Or.inr hQ)), List.length_cons]
        omega
      · have hor : ¬ (P a ∨ Q a) := by tauto
        simp only [countTrue, indicP_neg hP, indicP_neg hQ, indicP_pos hor,
          List.length_cons]
        omega

/-! ### Sum identities for mean and variance -/

theorem list_sum_eq_mean (l : List ℚ) (hn : l ≠ []) :
    l.sum = l.length * mean_density l := by
  have hlen : ((l.length : ℚ)) ≠ 0 := by
    exact_mod_cast List.length_pos.mpr hn |>.ne'
  field_simp [mean_density]

theorem list_sum_sq_eq_var (l : List ℚ) (hn : l ≠ []) :
    (l.map (fun x => (x - mean_density l) ^ 2)).sum = l.length * var_density l := by
  have hlen : ((l.length : ℚ)) ≠ 0 := by
    exact_mod_cast List.length_pos.mpr hn |>.ne'
  field_simp [var_density]

theorem sum_map_sub (l : List ℚ) (c : ℚ) :
    (l.map (fun x => x - c)).sum = l.sum - l.length * c := by
  induction l with
  | nil => simp
  | cons a t ih =>
    simp only [List.map_cons, List.sum_cons, ih, List.length_cons]
    push_cast
    ring

theorem sum_map_sub_mean (l : List ℚ) (hn : l ≠ []) :
    (l.map (fun x => x - mean_density l)).sum = 0 := by
  rw [sum_map_sub, list_sum_eq_mean l hn]
  ring

theorem var_density_nonneg (l : List ℚ) : 0 ≤ var_density l := by
  unfold var_density
  apply div_nonneg
  · exact List.sum_nonneg (by
      intro x hx
      obtain ⟨y, -, rfl⟩ := List.mem_map.mp hx
      positivity)
  · positivity

theorem std_density_nonneg (l : List ℚ) : 0 ≤ std_density l :=
  Real.sqrt_nonneg _

theorem std_density_sq (l : List ℚ) :
    std_density l ^ 2 = ((var_density l : ℚ) : ℝ) := by
  unfold std_density
  rw [Real.sq_sqrt]
  exact_mod_cast var_density_nonneg l

theorem var_density_zero (l : List ℚ) (hn : l ≠ []) (h : var_density l = 0) :
    ∀ x ∈ l, x = mean_density l := by
  have hlen : (0 : ℚ) < (l.length : ℚ) := by
    exact_mod_cast List.length_pos.mpr hn
  have hsum : (l.map (fun x => (x - mean_density l) ^ 2)).sum = 0 := by
    have := list_sum_sq_eq_var l hn
    rw [h] at this
    simpa using this
  intro x hx
  have hterm : (x - mean_density l) ^ 2 = 0 := by
    by_contra hne
    have hmem : (x - mean_density l) ^ 2 ∈
        l.map (fun y => (y - mean_density l) ^ 2) := List.mem_map_of_mem _ hx
    have hpos : 0 < (x - mean_density l) ^ 2 :=
      lt_of_le_of_ne (sq_nonneg _) (Ne.symm hne)
    have hle : (x - mean_density l) ^ 2 ≤
        (l.map (fun y => (y - mean_density l) ^ 2)).sum :=
      List.single_le_sum (by
        intro y hy
        obtain ⟨z, -, rfl⟩ := List.mem_map.mp hy
        positivity) _ hmem
    rw [hsum] at hle
    linarith
  have := pow_eq_zero_iff (n := 2) (by norm_num) |>.mp hterm
  linarith [sub_eq_zero.mp this]

/-! ### The second moment about a shifted centre, over the reals -/

theorem cast_sum_sub (l : List ℚ) (c : ℚ) :
    (l.map (fun x : ℚ => (x : ℝ) - (c : ℝ))).sum
      = (((l.map (fun x => x - c)).sum : ℚ) : ℝ) := by
  induction l with
  | nil => simp
  | cons a t ih =>
    simp only [List.map_cons, List.sum_cons, ih]
    push_cast
    ring

theorem cast_sum_sq (l : List ℚ) (c : ℚ) :
    (l.map (fun x : ℚ => ((x : ℝ) - (c : ℝ)) ^ 2)).sum
      = (((l.map (fun x => (x - c) ^ 2)).sum : ℚ) : ℝ) := by
  induction l with
  | nil => simp
  | cons a t ih =>
    simp only [List.map_cons, List.sum_cons, ih]
    push_cast
    ring

theorem sum_sq_shift (l : List ℚ) (c d : ℝ) :
    (l.map (fun x : ℚ => ((x : ℝ) - (c + d)) ^ 2)).sum
      = (l.map (fun x : ℚ => ((x : ℝ) - c) ^ 2)).sum
        - 2 * d * (l.map (fun x : ℚ => (x : ℝ) - c)).sum
        + l.length * d ^ 2 := by
  induction l with
  | nil => simp
  | cons a t ih =>
    simp only [List.map_cons, List.sum_cons, ih, List.length_cons]
    push_cast
    ring

theorem sum_sq_about (l : List ℚ) (hn : l ≠ []) (d : ℝ) :
    (l.map (fun x : ℚ => ((x : ℝ) - ((mean_density l : ℚ) : ℝ) - d) ^ 2)).sum
      = l.length * (((var_density l : ℚ) : ℝ) + d ^ 2) := by
  have h1 : (l.map (fun x : ℚ => ((x : ℝ) - ((mean_density l : ℚ) : ℝ)) ^ 2)).sum
      = l.length * ((var_density l : ℚ) : ℝ) := by
    rw [cast_sum_sq, list_sum_sq_eq_var l hn]
    push_cast
    ring
  have h2 : (l.map (fun x : ℚ => (x : ℝ) - ((mean_density l : ℚ) : ℝ))).sum = 0 := by
    rw [cast_sum_sub, sum_map_sub_mean l hn]
    norm_num
  have h3 := sum_sq_shift l ((mean_density l : ℚ) : ℝ) d
  calc (l.map (fun x : ℚ => ((x : ℝ) - ((mean_density l : ℚ) : ℝ) - d) ^ 2)).sum
      = (l.map (fun x : ℚ =>
          ((x : ℝ) - (((mean_density l : ℚ) : ℝ) + d)) ^ 2)).sum := by
        congr 1
        apply List.map_congr_left
        intro x hx
        ring_nf
    _ = l.length * (((var_density l : ℚ) : ℝ) + d ^ 2) := by
        rw [h3, h1, h2]
        ring

/-! ### Cantelli-type tail bounds for the empirical distribution -/

theorem countTrue_mul_le_sum (l : List ℚ) (P : ℚ → Prop) (c b : ℝ) (hb : 0 ≤ b)
    (h : ∀ x ∈ l, P x → b ≤ ((x : ℝ) - c) ^ 2) :
    (countTrue P l : ℝ) * b ≤ (l.map (fun x : ℚ => ((x : ℝ) - c) ^ 2)).sum := by
  induction l with
  | nil => simp [countTrue]
  | cons a t ih =>
    have iht := ih (fun x hx hP => h x (List.mem_cons_of_mem a hx) hP)
    simp only [countTrue, List.map_cons, List.sum_cons]
    by_cases hP : P a
    · rw [indicP_pos hP]
      push_cast
      have hba := h a (List.mem_cons_self a t) hP
      nlinarith [iht]
    · rw [indicP_neg hP]
      push_cast
      nlinarith [iht, sq_nonneg ((a : ℝ) - c)]

theorem cantelli_lower (l : List ℚ) (hn : l ≠ []) :
    13 * countTrue
        (fun x => (x : ℝ) < (mean_density l : ℝ) - 1.5 * std_density l) l
      ≤ 4 * l.length := by
  by_cases hv : var_density l = 0
  · have hσ : std_density l = 0 := by
      unfold std_density
      rw [hv]
      simp
    have hzero : countTrue
        (fun x => (x : ℝ) < (mean_density l : ℝ) - 1.5 * std_density l) l = 0 := by
      apply countTrue_eq_zero
      intro x hx
      rw [var_density_zero l hn hv x hx, hσ]
      simp
    rw [hzero]
    omega
  · have hσpos : 0 < std_density l := by
      apply Real.sqrt_pos.mpr
      have := var_density_nonneg l
      have : (0 : ℝ) ≤ ((var_density l : ℚ) : ℝ) := by exact_mod_cast this
      have hne : ((var_density l : ℚ) : ℝ) ≠ 0 := by exact_mod_cast hv
      exact lt_of_le_of_ne this (Ne.symm hne)
    set σ := std_density l with hσdef
    set μ := ((mean_density l : ℚ) : ℝ) with hμdef
    have key := countTrue_mul_le_sum l
      (fun x => (x : ℝ) < μ - 1.5 * σ) (μ + 2/3 * σ) ((13/6 * σ) ^ 2)
      (sq_nonneg _) ?_
    · have hsum := sum_sq_about l hn (2/3 * σ)
      have hvarσ : ((var_density l : ℚ) : ℝ) = σ ^ 2 := (std_density_sq l).symm
      rw [hvarσ] at hsum
      have key2 : (countTrue (fun x => (x : ℝ) < μ - 1.5 * σ) l : ℝ) * ((13/6 * σ) ^ 2)
          ≤ l.length * (σ ^ 2 + (2/3 * σ) ^ 2) := by
        calc (countTrue (fun x => (x : ℝ) < μ - 1.5 * σ) l : ℝ) * ((13/6 * σ) ^ 2)
            ≤ (l.map (fun x : ℚ => ((x : ℝ) - (μ + 2/3 * σ)) ^ 2)).sum := key
          _ = l.length * (σ ^ 2 + (2/3 * σ) ^ 2) := by
              rw [← hsum]
              congr 1
              apply List.map_congr_left
              intro x hx
              ring_nf
      have hfin : (13 : ℝ) * countTrue (fun x => (x : ℝ) < μ - 1.5 * σ) l
          ≤ 4 * l.length := by
        have hm0 : (0 : ℝ) ≤ (countTrue (fun x => (x : ℝ) < μ - 1.5 * σ) l : ℝ) :=
          Nat.cast_nonneg _
        have hn0 : (0 : ℝ) ≤ (l.length : ℝ) := Nat.cast_nonneg _
        nlinarith [key2, mul_pos hσpos hσpos, hm0, hn0]
      exact_mod_cast hfin
    · intro x hx hP
      nlinarith [hP, hσpos, sq_nonneg ((x : ℝ) - μ + 13/6 * σ)]

theorem cantelli_upper (l : List ℚ) (hn : l ≠ []) :
    13 * countTrue
        (fun x => (mean_density l : ℝ) + 1.5 * std_density l < (x : ℝ)) l
      ≤ 4 * l.length := by
  by_cases hv : var_density l = 0
  · have hσ : std_density l = 0 := by
      unfold std_density
      rw [hv]
      simp
    have hzero : countTrue
        (fun x => (mean_density l : ℝ) + 1.5 * std_density l < (x : ℝ)) l = 0 := by
      apply countTrue_eq_zero
      intro x hx
      rw [var_density_zero l hn hv x hx, hσ]
      simp
    rw [hzero]
    omega
  · have hσpos : 0 < std_density l := by
      apply Real.sqrt_pos.mpr
      have := var_density_nonneg l
      have : (0 : ℝ) ≤ ((var_density l : ℚ) : ℝ) := by exact_mod_cast this
      have hne : ((var_density l : ℚ) : ℝ) ≠ 0 := by exact_mod_cast hv
      exact lt_of_le_of_ne this (Ne.symm hne)
    set σ := std_density l with hσdef
    set μ := ((mean_density l : ℚ) : ℝ) with hμdef
    have key := countTrue_mul_le_sum l
      (fun x => μ + 1.5 * σ < (x : ℝ)) (μ - 2/3 * σ) ((13/6 * σ) ^ 2)
      (sq_nonneg _) ?_
    · have hsum := sum_sq_about l hn (-(2/3) * σ)
      have hvarσ : ((var_density l : ℚ) : ℝ) = σ ^ 2 := (std_density_sq l).symm
      rw [hvarσ] at hsum
      have key2 : (countTrue (fun x => μ + 1.5 * σ < (x : ℝ)) l : ℝ) * ((13/6 * σ) ^ 2)
          ≤ l.length * (σ ^ 2 + (2/3 * σ) ^ 2) := by
        calc (countTrue (fun x => μ + 1.5 * σ < (x : ℝ)) l : ℝ) * ((13/6 * σ) ^ 2)
            ≤ (l.map (fun x : ℚ => ((x : ℝ) - (μ - 2/3 * σ)) ^ 2)).sum := key
          _ = (l.map (fun x : ℚ =>
                ((x : ℝ) - ((mean_density l : ℚ) : ℝ) - (-(2/3) * σ)) ^ 2)).sum := by
              congr 1
              apply List.map_congr_left
              intro x hx
              ring_nf
          _ = l.length * (σ ^ 2 + (2/3 * σ) ^ 2) := by
              rw [hsum]
              ring
      have hfin : (13 : ℝ) * countTrue (fun x => μ + 1.5 * σ < (x : ℝ)) l
          ≤ 4 * l.length := by
        have hm0 : (0 : ℝ) ≤ (countTrue (fun x => μ + 1.5 * σ < (x : ℝ)) l : ℝ) :=
          Nat.cast_nonneg _
        have hn0 : (0 : ℝ) ≤ (l.length : ℝ) := Nat.cast_nonneg _
        nlinarith [key2, mul_pos hσpos hσpos, hm0, hn0]
      exact_mod_cast hfin
    · intro x hx hP
      nlinarith [hP, hσpos, sq_nonneg ((x : ℝ) - μ - 13/6 * σ)]

/-! ### Order statistics and the interpolated percentile -/

theorem sorted_densities_perm (l : List ℚ) :
    List.Perm (sorted_densities l) l :=
  List.perm_insertionSort _ l

theorem sorted_densities_sorted (l : List ℚ) :
    List.Sorted (· ≤ ·) (sorted_densities l) :=
  List.sorted_insertionSort _ l

theorem sorted_densities_length (l : List ℚ) :
    (sorted_densities l).length = l.length :=
  (sorted_densities_perm l).length_eq

theorem getD_sorted_le (s : List ℚ) (hs : List.Sorted (· ≤ ·) s) (i j : ℕ)
    (hij : i ≤ j) (hj : j < s.length) : s.getD i 0 ≤ s.getD j 0 := by
  have hi : i < s.length := by omega
  rw [List.getD_eq_getElem s 0 hi, List.getD_eq_getElem s 0 hj]
  rcases eq_or_lt_of_le hij with rfl | hlt
  · exact le_rfl
  · have h := List.pairwise_iff_get.mp hs ⟨i, hi⟩ ⟨j, hj⟩ hlt
    simpa [List.get_eq_getElem] using h

theorem rankOf_nonneg (l : List ℚ) (q : ℚ) (hn : l ≠ []) (hq0 : 0 ≤ q) :
    0 ≤ rankOf l q := by
  unfold rankOf
  have h1 : (1 : ℚ) ≤ (l.length : ℚ) := by
    exact_mod_cast List.length_pos.mpr hn
  exact mul_nonneg (div_nonneg hq0 (by norm_num)) (by linarith)

theorem rankOf_le (l : List ℚ) (q : ℚ) (hn : l ≠ []) (hq0 : 0 ≤ q)
    (hq1 : q ≤ 100) : rankOf l q ≤ (l.length : ℚ) - 1 := by
  unfold rankOf
  have h1 : (1 : ℚ) ≤ (l.length : ℚ) := by
    exact_mod_cast List.length_pos.mpr hn
  have h2 : q / 100 ≤ 1 := (div_le_one (by norm_num)).mpr hq1
  calc q / 100 * ((l.length : ℚ) - 1) ≤ 1 * ((l.length : ℚ) - 1) :=
        mul_le_mul_of_nonneg_right h2 (by linarith)
    _ = (l.length : ℚ) - 1 := one_mul _

theorem kOf_cast_le (l : List ℚ) (q : ℚ) (hn : l ≠ []) (hq0 : 0 ≤ q) :
    (kOf l q : ℚ) ≤ rankOf l q := by
  have h0 := rankOf_nonneg l q hn hq0
  unfold kOf
  have h1 : ((⌊rankOf l q⌋.toNat : ℤ) : ℚ) ≤ rankOf l q := by
    rw [Int.toNat_of_nonneg (Int.floor_nonneg.mpr h0)]
    exact Int.floor_le _
  exact_mod_cast h1

theorem rankOf_lt_kOf_add_one (l : List ℚ) (q : ℚ) :
    rankOf l q < (kOf l q : ℚ) + 1 := by
  unfold kOf
  have h1 : rankOf l q < (⌊rankOf l q⌋ : ℚ) + 1 := Int.lt_floor_add_one _
  have h2 : ((⌊rankOf l q⌋ : ℤ) : ℚ) ≤ ((⌊rankOf l q⌋.toNat : ℤ) : ℚ) := by
    exact_mod_cast Int.self_le_toNat _
  push_cast at h2 ⊢
  linarith

theorem kOf_lt_length (l : List ℚ) (q : ℚ) (hn : l ≠ []) (hq0 : 0 ≤ q)
    (hq1 : q ≤ 100) : kOf l q < l.length := by
  have h1 := kOf_cast_le l q hn hq0
  have h2 := rankOf_le l q hn hq0 hq1
  have h3 : (kOf l q : ℚ) + 1 ≤ (l.length : ℚ) := by linarith
  have h4 : kOf l q + 1 ≤ l.length := by exact_mod_cast h3
  omega

theorem aOf_le_bOf (l : List ℚ) (q : ℚ) (hn : l ≠ []) (hq0 : 0 ≤ q)
    (hq1 : q ≤ 100) : aOf l q ≤ bOf l q := by
  have hk : kOf l q < (sorted_densities l).length := by
    rw [sorted_densities_length]
    exact kOf_lt_length l q hn hq0 hq1
  by_cases hk1 : kOf l q + 1 < (sorted_densities l).length
  · have h := getD_sorted_le (sorted_densities l) (sorted_densities_sorted l)
      (kOf l q) (kOf l q + 1) (by omega) hk1
    unfold aOf bOf
    rw [List.getD_eq_getElem _ _ hk1]
    rw [List.getD_eq_getElem _ _ hk, List.getD_eq_getElem _ _ hk1] at h
    rw [List.getD_eq_getElem _ _ hk]
    exact h
  · unfold bOf
    rw [List.getD_eq_default _ _ (by omega)]

theorem percentile_ge_aOf (l : List ℚ) (q : ℚ) (hn : l ≠ []) (hq0 : 0 ≤ q)
    (hq1 : q ≤ 100) : aOf l q ≤ percentile l q := by
  have hfrac : 0 ≤ rankOf l q - (kOf l q : ℚ) := by
    linarith [kOf_cast_le l q hn hq0]
  have hab := aOf_le_bOf l q hn hq0 hq1
  unfold percentile
  nlinarith

theorem percentile_le_bOf (l : List ℚ) (q : ℚ) (hn : l ≠ []) (hq0 : 0 ≤ q)
    (hq1 : q ≤ 100) : percentile l q ≤ bOf l q := by
  have h1 := rankOf_lt_kOf_add_one l q
  have hfrac0 : 0 ≤ rankOf l q - (kOf l q : ℚ) := by
    linarith [kOf_cast_le l q hn hq0]
  have hab := aOf_le_bOf l q hn hq0 hq1
  unfold percentile
  nlinarith

theorem count_below (l : List ℚ) (q : ℚ) (hn : l ≠ []) (hq0 : 0 ≤ q)
    (hq1 : q ≤ 100) (c : ℝ) (hc : ((aOf l q : ℚ) : ℝ) < c) :
    kOf l q + 1 ≤ countTrue (fun x => (x : ℝ) < c) l := by
  have hslen : (sorted_densities l).length = l.length := sorted_densities_length l
  have hk : kOf l q < (sorted_densities l).length := by
    rw [hslen]
    exact kOf_lt_length l q hn hq0 hq1
  have hlen_take : ((sorted_densities l).take (kOf l q + 1)).length = kOf l q + 1 := by
    rw [List.length_take]
    omega
  have htake : countTrue (fun x => (x : ℝ) < c)
      ((sorted_densities l).take (kOf l q + 1)) = kOf l q + 1 := by
    rw [countTrue_eq_length, hlen_take]
    intro x hxmem
    obtain ⟨j, hj, rfl⟩ := List.mem_iff_getElem.mp hxmem
    have hj' : j ≤ kOf l q := by
      rw [hlen_take] at hj
      omega
    rw [List.getElem_take]
    have hle := getD_sorted_le (sorted_densities l) (sorted_densities_sorted l)
      j (kOf l q) hj' hk
    rw [List.getD_eq_getElem _ _ (by omega)] at hle
    have hcast : (((sorted_densities l)[j] : ℚ) : ℝ) ≤ ((aOf l q : ℚ) : ℝ) := by
      exact_mod_cast hle
    exact lt_of_le_of_lt hcast hc
  calc kOf l q + 1
      = countTrue (fun x => (x : ℝ) < c) ((sorted_densities l).take (kOf l q + 1)) :=
        htake.symm
    _ ≤ countTrue (fun x => (x : ℝ) < c) (sorted_densities l) :=
        countTrue_sublist (List.take_sublist _ _) _
    _ = countTrue (fun x => (x : ℝ) < c) l :=
        countTrue_perm (sorted_densities_perm l) _

theorem count_above (l : List ℚ) (q : ℚ) (hn : l ≠ [])
    (hk1 : kOf l q + 1 < l.length) (c : ℝ) (hc : c < ((bOf l q : ℚ) : ℝ)) :
    l.length - (kOf l q + 1) ≤ countTrue (fun x => c < (x : ℝ)) l := by
  have hslen : (sorted_densities l).length = l.length := sorted_densities_length l
  have hk1s : kOf l q + 1 < (sorted_densities l).length := by omega
  have hbOf : bOf l q = (sorted_densities l).getD (kOf l q + 1) 0 := by
    unfold bOf
    rw [List.getD_eq_getElem _ _ hk1s, List.getD_eq_getElem _ _ hk1s]
  have hlen_drop : ((sorted_densities l).drop (kOf l q + 1)).length
      = l.length - (kOf l q + 1) := by
    rw [List.length_drop, hslen]
  have hdrop : countTrue (fun x => c < (x : ℝ))
      ((sorted_densities l).drop (kOf l q + 1)) = l.length - (kOf l q + 1) := by
    rw [countTrue_eq_length, hlen_drop]
    intro x hxmem
    obtain ⟨j, hj, rfl⟩ := List.mem_iff_getElem.mp hxmem
    have hjlen : kOf l q + 1 + j < (sorted_densities l).length := by
      rw [List.length_drop] at hj
      omega
    rw [List.getElem_drop]
    have hle := getD_sorted_le (sorted_densities l) (sorted_densities_sorted l)
      (kOf l q + 1) (kOf l q + 1 + j) (by omega) hjlen
    rw [List.getD_eq_getElem _ _ hjlen, ← hbOf] at hle
    have hcast : ((bOf l q : ℚ) : ℝ)
        ≤ (((sorted_densities l)[kOf l q + 1 + j] : ℚ) : ℝ) := by
      exact_mod_cast hle
    exact lt_of_lt_of_le hc hcast
  calc l.length - (kOf l q + 1)
      = countTrue (fun x => c < (x : ℝ))
          ((sorted_densities l).drop (kOf l q + 1)) := hdrop.symm
    _ ≤ countTrue (fun x => c < (x : ℝ)) (sorted_densities l) :=
        countTrue_sublist (List.drop_sublist _ _) _
    _ = countTrue (fun x => c < (x : ℝ)) l :=
        countTrue_perm (sorted_densities_perm l) _

/-! ### The quartiles against the statistical thresholds -/

theorem p25_le_p75_thm (l : List ℚ) (hn : l ≠ []) : p25 l ≤ p75 l := by
  have hn1 : (1 : ℚ) ≤ (l.length : ℚ) := by
    exact_mod_cast List.length_pos.mpr hn
  have hr : rankOf l 25 ≤ rankOf l 75 := by
    unfold rankOf
    exact mul_le_mul_of_nonneg_right (by norm_num) (by linarith)
  have hk : kOf l 25 ≤ kOf l 75 := by
    unfold kOf
    exact Int.toNat_le_toNat (Int.floor_le_floor hr)
  by_cases hkk : kOf l 25 = kOf l 75
  · have ha : aOf l 25 = aOf l 75 := by
      unfold aOf
      rw [hkk]
    have hb : bOf l 25 = bOf l 75 := by
      unfold bOf aOf
      rw [hkk]
    have hab := aOf_le_bOf l 75 hn (by norm_num) (by norm_num)
    unfold p25 p75 percentile
    rw [ha, hb, hkk]
    nlinarith [hab, hr]
  · have hlt : kOf l 25 < kOf l 75 := lt_of_le_of_ne hk hkk
    have hk75 : kOf l 75 < l.length := kOf_lt_length l 75 hn (by norm_num) (by norm_num)
    have h1 : percentile l 25 ≤ bOf l 25 :=
      percentile_le_bOf l 25 hn (by norm_num) (by norm_num)
    have h2 : aOf l 75 ≤ percentile l 75 :=
      percentile_ge_aOf l 75 hn (by norm_num) (by norm_num)
    have hk1s : kOf l 25 + 1 < (sorted_densities l).length := by
      rw [sorted_densities_length]
      omega
    have hb25 : bOf l 25 = (sorted_densities l).getD (kOf l 25 + 1) 0 := by
      unfold bOf
      rw [List.getD_eq_getElem _ _ hk1s, List.getD_eq_getElem _ _ hk1s]
    have hmid : bOf l 25 ≤ aOf l 75 := by
      rw [hb25]
      unfold aOf
      exact getD_sorted_le _ (sorted_densities_sorted l) _ _ (by omega)
        (by rw [sorted_densities_length]; omega)
    unfold p25 p75
    linarith

theorem iqr_nonneg (l : List ℚ) (hn : l ≠ []) : 0 ≤ iqr l := by
  have := p25_le_p75_thm l hn
  unfold iqr
  linarith

theorem mean_sub_le_p75 (l : List ℚ) (hn : l ≠ []) :
    (mean_density l : ℝ) - 1.5 * std_density l ≤ ((p75 l : ℚ) : ℝ) := by
  by_contra hcon
  push_neg at hcon
  have hap : aOf l 75 ≤ p75 l :=
    percentile_ge_aOf l 75 hn (by norm_num) (by norm_num)
  have ha : ((aOf l 75 : ℚ) : ℝ) < (mean_density l : ℝ) - 1.5 * std_density l := by
    have hcast : ((aOf l 75 : ℚ) : ℝ) ≤ ((p75 l : ℚ) : ℝ) := by exact_mod_cast hap
    exact lt_of_le_of_lt hcast hcon
  have hcount := count_below l 75 hn (by norm_num) (by norm_num) _ ha
  have hcant := cantelli_lower l hn
  have hnat : 13 * (kOf l 75 + 1) ≤ 4 * l.length :=
    le_trans (Nat.mul_le_mul_left 13 hcount) hcant
  have hq : (13 : ℚ) * ((kOf l 75 : ℚ) + 1) ≤ 4 * (l.length : ℚ) := by
    exact_mod_cast hnat
  have hk1 := rankOf_lt_kOf_add_one l 75
  have hrank : rankOf l 75 = 3/4 * ((l.length : ℚ) - 1) := by
    unfold rankOf
    ring
  have hn1 : (1 : ℚ) ≤ (l.length : ℚ) := by
    exact_mod_cast List.length_pos.mpr hn
  have hk0 : (0 : ℚ) ≤ (kOf l 75 : ℚ) := by positivity
  rw [hrank] at hk1
  linarith

theorem p25_le_mean_add (l : List ℚ) (hn : l ≠ []) :
    ((p25 l : ℚ) : ℝ) ≤ (mean_density l : ℝ) + 1.5 * std_density l := by
  rcases Nat.lt_or_ge l.length 2 with h2 | h2
  · have hn1 : l.length = 1 := by
      have := List.length_pos.mpr hn
      omega
    obtain ⟨x, rfl⟩ := List.length_eq_one.mp hn1
    have hr : rankOf [x] 25 = 0 := by
      unfold rankOf
      norm_num
    have hk : kOf [x] 25 = 0 := by
      unfold kOf
      rw [hr]
      norm_num
    have hp : p25 [x] = x := by
      unfold p25 percentile aOf bOf
      rw [hr, hk]
      have hs : sorted_densities [x] = [x] := rfl
      rw [hs]
      norm_num [List.getD]
    have hm : mean_density [x] = x := by
      unfold mean_density
      norm_num
    rw [hp, hm]
    have := std_density_nonneg [x]
    linarith
  · by_contra hcon
    push_neg at hcon
    have hn2 : (2 : ℚ) ≤ (l.length : ℚ) := by exact_mod_cast h2
    have hc := kOf_cast_le l 25 hn (by norm_num)
    have hr : rankOf l 25 = 1/4 * ((l.length : ℚ) - 1) := by
      unfold rankOf
      ring
    rw [hr] at hc
    have hk1 : kOf l 25 + 1 < l.length := by
      by_contra hge
      push_neg at hge
      have hgq : ((l.length : ℚ)) ≤ (kOf l 25 : ℚ) + 1 := by exact_mod_cast hge
      linarith
    have hpb : p25 l ≤ bOf l 25 :=
      percentile_le_bOf l 25 hn (by norm_num) (by norm_num)
    have hb : (mean_density l : ℝ) + 1.5 * std_density l < ((bOf l 25 : ℚ) : ℝ) := by
      have hcast : ((p25 l : ℚ) : ℝ) ≤ ((bOf l 25 : ℚ) : ℝ) := by exact_mod_cast hpb
      exact lt_of_lt_of_le hcon hcast
    have hcount := count_above l 25 hn hk1 _ hb
    have hcant := cantelli_upper l hn
    have hnat : 13 * (l.length - (kOf l 25 + 1)) ≤ 4 * l.length :=
      le_trans (Nat.mul_le_mul_left 13 hcount) hcant
    have hsub : ((l.length - (kOf l 25 + 1) : ℕ) : ℚ)
        = (l.length : ℚ) - ((kOf l 25 : ℚ) + 1) := by
      have hle : kOf l 25 + 1 ≤ l.length := by omega
      rw [Nat.cast_sub hle]
      push_cast
      ring
    have hq : (13 : ℚ) * ((l.length : ℚ) - ((kOf l 25 : ℚ) + 1))
        ≤ 4 * (l.length : ℚ) := by
      rw [← hsub]
      exact_mod_cast hnat
    linarith

/-! ### The combined thresholds never invert -/

theorem final_low_le_final_high (l : List ℚ) (hn : l ≠ []) :
    final_low l ≤ final_high l := by
  have hiqr : (0 : ℝ) ≤ ((iqr l : ℚ) : ℝ) := by exact_mod_cast iqr_nonneg l hn
  have hσ := std_density_nonneg l
  have h1 : low_threshold l ≤ high_threshold l := by
    unfold low_threshold high_threshold
    linarith
  have h2 : low_threshold l ≤ ((outlier_high l : ℚ) : ℝ) := by
    rw [outlier_high_cast]
    have := mean_sub_le_p75 l hn
    unfold low_threshold
    linarith
  have h3 : ((outlier_low l : ℚ) : ℝ) ≤ high_threshold l := by
    rw [outlier_low_cast]
    have := p25_le_mean_add l hn
    unfold high_threshold
    linarith
  have h4 : ((outlier_low l : ℚ) : ℝ) ≤ ((outlier_high l : ℚ) : ℝ) := by
    rw [outlier_low_cast, outlier_high_cast]
    have hpq : ((p25 l : ℚ) : ℝ) ≤ ((p75 l : ℚ) : ℝ) := by
      exact_mod_cast p25_le_p75_thm l hn
    linarith
  unfold final_low final_high
  exact max_le (le_min h1 h2) (le_min h3 h4)

/-! ### C1: the three phase fractions always sum to one -/

/-- C1: for every nonempty density array the solid, liquid and interface
fractions sum to exactly 1.  The masks are exhaustive by construction and, as
`final_low_le_final_high` shows, the combined thresholds can in fact never
invert, so the solid and liquid masks are mutually exclusive on every sample. -/
theorem C1_phase_fractions_sum_to_one (l : List ℚ) (hn : l ≠ []) :
    solid_fraction l + liquid_fraction l + interface_fraction l = 1 := by
  have hord := final_low_le_final_high l hn
  have hdisj : ∀ x ∈ l, ¬ ((x : ℝ) > final_high l ∧ (x : ℝ) < final_low l) := by
    rintro x hx ⟨hs, hl⟩
    linarith
  have hcnt := countTrue_partition (fun x => (x : ℝ) > final_high l)
    (fun x => (x : ℝ) < final_low l) l hdisj
  have hlen : ((l.length : ℚ)) ≠ 0 := by
    exact_mod_cast (List.length_pos.mpr hn).ne'
  have hsum : (solid_count l : ℚ) + liquid_count l + interface_count l
      = (l.length : ℚ) := by
    exact_mod_cast hcnt
  unfold solid_fraction liquid_fraction interface_fraction
  rw [div_add_div_same, div_add_div_same, hsum]
  exact div_self hlen

/-- C1 witness: the theorem applied to the concrete density array `[1, 3]`. -/
theorem C1_phase_fractions_witness :
    ([1, 3] : List ℚ) ≠ [] ∧
    solid_fraction [1, 3] + liquid_fraction [1, 3] + interface_fraction [1, 3] = 1 :=
  ⟨by simp, C1_phase_fractions_sum_to_one [1, 3] (by simp)⟩

/-! ### C6: the root solve with no sign change in the bracket -/

theorem birch_murnaghan_at_V0 (B0 Bp : ℝ) : birch_murnaghan 1 1 B0 Bp = 0 := by
  norm_num [birch_murnaghan, Real.one_rpow]

theorem birch_murnaghan_neg_at_3half (B0 : ℝ) (hB0 : 0 < B0) :
    birch_murnaghan (3/2) 1 B0 4 < 0 := by
  unfold birch_murnaghan
  have h1 : (1 : ℝ) / (3/2) = 2/3 := by norm_num
  rw [h1]
  have h2 : ((2 : ℝ)/3) ^ ((7 : ℝ)/3) < ((2 : ℝ)/3) ^ ((5 : ℝ)/3) :=
    Real.rpow_lt_rpow_of_exponent_gt (by norm_num) (by norm_num) (by norm_num)
  have h3 : (0 : ℝ) < 3/2 * B0 := by linarith
  have h4 : (0 : ℝ) < 3/2 * B0 *
      (((2 : ℝ)/3) ^ ((5 : ℝ)/3) - ((2 : ℝ)/3) ^ ((7 : ℝ)/3)) :=
    mul_pos h3 (by linarith)
  nlinarith [h4]

/-- C6 (amended): whenever the bracketed function has no sign change over the
script's bracket `[V.min(), V.max()*1.5]` — i.e. `f(a) * f(b) > 0` — the volume
solve fails loudly with the library's root-not-found error instead of
swallowing the condition or returning a wrong answer; the error itself carries
only the library's fixed message. -/
theorem C6_root_bracket_failure (V0 B0 Bp Vmin Vmax target : ℝ)
    (hsign : 0 < (birch_murnaghan Vmin V0 B0 Bp - target) *
      (birch_murnaghan (Vmax * 1.5) V0 B0 Bp - target)) :
    vol_at_target V0 B0 Bp Vmin Vmax target =
      Except.error ("f(a) and f(b) must have different signs") := by
  unfold vol_at_target root_scalar
  rw [if_pos hsign]

/-- C6 witness: the amended theorem applied at a concrete no-sign-change
instance (parameters `V0 = 1, B0 = 1, B0_prime = 4`, bracket `[1, 1.5]`,
target pressure `1`). -/
theorem C6_root_bracket_failure_witness :
    (0 : ℝ) < (birch_murnaghan 1 1 1 4 - 1) *
      (birch_murnaghan (1 * 1.5) 1 1 4 - 1) ∧
    vol_at_target 1 1 4 1 1 1 =
      Except.error ("f(a) and f(b) must have different signs") := by
  have h1 : birch_murnaghan 1 1 1 4 = 0 := birch_murnaghan_at_V0 1 4
  have h15 : (1 : ℝ) * 1.5 = 3/2 := by norm_num
  have h2 : birch_murnaghan (1 * 1.5) 1 1 4 < 0 := by
    rw [h15]
    exact birch_murnaghan_neg_at_3half 1 one_pos
  have hsign : (0 : ℝ) < (birch_murnaghan 1 1 1 4 - 1) *
      (birch_murnaghan (1 * 1.5) 1 1 4 - 1) :=
    mul_pos_of_neg_of_neg (by rw [h1]; norm_num) (by linarith)
  exact ⟨hsign, C6_root_bracket_failure 1 1 4 1 1 1 hsign⟩

/-- C6 counterexample to the claim as stated: at concrete no-sign-change
inputs the script's failure is the library's fixed error value, which is
identical for the two phases and for different target pressures, and whose
message names neither a phase nor the target pressure. -/
theorem C6_error_does_not_identify :
    vol_at_target 1 1 4 1 1 1 =
      Except.error ("f(a) and f(b) must have different signs") ∧
    vol_at_target 1 2 4 1 1 2 =
      Except.error ("f(a) and f(b) must have different signs") ∧
    ¬ (("solid").data <:+: ("f(a) and f(b) must have different signs").data) ∧
    ¬ (("liquid").data <:+: ("f(a) and f(b) must have different signs").data) ∧
    ¬ (("0.5").data <:+: ("f(a) and f(b) must have different signs").data) := by
  have h15 : (1 : ℝ) * 1.5 = 3/2 := by norm_num
  have e1 : vol_at_target 1 1 4 1 1 1 =
      Except.error ("f(a) and f(b) must have different signs") := by
    have h1 : birch_murnaghan 1 1 1 4 = 0 := birch_murnaghan_at_V0 1 4
    have h2 : birch_murnaghan (1 * 1.5) 1 1 4 < 0 := by
      rw [h15]
      exact birch_murnaghan_neg_at_3half 1 one_pos
    unfold vol_at_target root_scalar
    exact if_pos (mul_pos_of_neg_of_neg
      (show birch_murnaghan 1 1 1 4 - 1 < 0 by rw [h1]; norm_num)
      (show birch_murnaghan (1 * 1.5) 1 1 4 - 1 < 0 by linarith))
  have e2 : vol_at_target 1 2 4 1 1 2 =
      Except.error ("f(a) and f(b) must have different signs") := by
    have h1 : birch_murnaghan 1 1 2 4 = 0 := birch_murnaghan_at_V0 2 4
    have h2 : birch_murnaghan (1 * 1.5) 1 2 4 < 0 := by
      rw [h15]
      exact birch_murnaghan_neg_at_3half 2 (by norm_num)
    unfold vol_at_target root_scalar
    exact if_pos (mul_pos_of_neg_of_neg
      (show birch_murnaghan 1 1 2 4 - 2 < 0 by rw [h1]; norm_num)
      (show birch_murnaghan (1 * 1.5) 1 2 4 - 2 < 0 by linarith))
  exact ⟨e1, e2, by decide, by decide, by decide⟩
